import Mathlib

/-!
Verification development for the MolecularGraph C boundary
(`src/build/libmoleculargraph.h`) and the graph-comparison engine it
exposes.  The only code in the repository is the C header, which fixes
the names, arities and return types of the exported operations; the
engine behind it (graph model, isomorphism matcher, common-subgraph
solver, metric derivation) is modelled from the design document.
-/

/-- C types appearing in the exported declarations of
`src/build/libmoleculargraph.h`: `char*`, `int` and `double`. -/
inductive CType where
  | ptr : CType
  | cint : CType
  | cdouble : CType
deriving DecidableEq, Repr

/-- One exported C declaration: name, return type, argument types. -/
structure CDecl where
  name : String
  ret : CType
  args : List CType
deriving DecidableEq, Repr

/-- The nineteen declarations of `src/build/libmoleculargraph.h`,
transcribed line by line. -/
def libmoleculargraphHeader : List CDecl :=
  [ ⟨"smilestomol", .ptr, [.ptr]⟩,
    ⟨"smartstomol", .ptr, [.ptr]⟩,
    ⟨"sdftomol", .ptr, [.ptr]⟩,
    ⟨"vertex_count", .cint, [.ptr]⟩,
    ⟨"edge_count", .cint, [.ptr]⟩,
    ⟨"inchikey", .ptr, [.ptr]⟩,
    ⟨"standard_weight", .cdouble, [.ptr]⟩,
    ⟨"drawsvg", .ptr, [.ptr]⟩,
    ⟨"has_exact_match", .cint, [.ptr, .ptr, .ptr]⟩,
    ⟨"has_substruct_match", .cint, [.ptr, .ptr, .ptr]⟩,
    ⟨"tdmcis_size", .cint, [.ptr, .ptr, .ptr]⟩,
    ⟨"tdmces_size", .cint, [.ptr, .ptr, .ptr]⟩,
    ⟨"tdmcis_tanimoto", .cdouble, [.ptr, .ptr, .ptr]⟩,
    ⟨"tdmces_tanimoto", .cdouble, [.ptr, .ptr, .ptr]⟩,
    ⟨"tdmcis_dist", .cint, [.ptr, .ptr, .ptr]⟩,
    ⟨"tdmces_dist", .cint, [.ptr, .ptr, .ptr]⟩,
    ⟨"tdmcis_gls", .cdouble, [.ptr, .ptr, .ptr]⟩,
    ⟨"tdmces_gls", .cdouble, [.ptr, .ptr, .ptr]⟩,
    ⟨"tdmces_gls_batch", .ptr, [.ptr]⟩ ]

/-- Modelled from the spec (§3): vertex attributes of the canonical
graph model — element kind, formal charge, aromaticity flag, isotope,
implicit-hydrogen count, ring-membership flag. -/
structure VAttr where
  element : Nat
  charge : Int
  aromatic : Bool
  isotope : Nat
  hcount : Nat
  inRing : Bool
deriving DecidableEq, Repr

/-- Modelled from the spec (§3): bond order of an edge. -/
inductive BondOrder where
  | single | double | triple | aromatic
deriving DecidableEq, Repr

/-- Modelled from the spec (§3): edge attributes — bond order, stereo
flag, ring-membership flag. -/
structure EAttr where
  order : BondOrder
  stereo : Bool
  inRing : Bool
deriving DecidableEq, Repr

/-- Modelled from the spec (§9): a pattern vertex constraint is a small
tagged variant — exact value, one of a set, or wildcard. -/
inductive VConstr where
  | exactV : VAttr → VConstr
  | oneOfV : List VAttr → VConstr
  | anyV : VConstr
deriving DecidableEq, Repr

/-- Modelled from the spec (§9): pattern edge constraint. -/
inductive EConstr where
  | exactE : EAttr → EConstr
  | oneOfE : List EAttr → EConstr
  | anyE : EConstr
deriving DecidableEq, Repr

/-- Compatibility of a pattern vertex constraint with a concrete
vertex attribute (asymmetric, per spec §3). -/
def VConstr.matchesV : VConstr → VAttr → Bool
  | .exactV a, x => a = x
  | .oneOfV l, x => l.contains x
  | .anyV, _ => true

/-- Compatibility of a pattern edge constraint with a concrete edge
attribute. -/
def EConstr.matchesE : EConstr → EAttr → Bool
  | .exactE a, x => a = x
  | .oneOfE l, x => l.contains x
  | .anyE, _ => true

/-- Modelled from the spec (§3, §4.1): a canonical attributed graph.
Vertices are an ordered sequence (index = position); edges reference
endpoints by index and carry an attribute.  `V` and `E` are the
vertex/edge attribute types (concrete attributes for a molecule,
constraints for a pattern). -/
structure CGraph (V E : Type) where
  vattrs : List V
  edges : List (Nat × Nat × E)
deriving DecidableEq, Repr

/-- A concrete molecule graph. -/
abbrev Molecule := CGraph VAttr EAttr

/-- A substructure-query pattern graph. -/
abbrev QPattern := CGraph VConstr EConstr

namespace CGraph

variable {V E : Type}

/-- Number of vertices (spec §6 accessor `vertex_count`). -/
def vertexCount (g : CGraph V E) : Nat := g.vattrs.length

/-- Number of edges (spec §6 accessor `edge_count`). -/
def edgeCount (g : CGraph V E) : Nat := g.edges.length

/-- Endpoints of an edge as an order-normalized pair, used to detect
duplicate undirected edges. -/
def normEnds (e : Nat × Nat × E) : Nat × Nat :=
  if e.1 ≤ e.2.1 then (e.1, e.2.1) else (e.2.1, e.1)

/-- Modelled from the spec (§4.1): construction-time validity — every
edge endpoint is in range, no self-loop, no duplicate undirected edge. -/
def validG (g : CGraph V E) : Bool :=
  g.edges.all (fun e =>
    decide (e.1 < g.vertexCount) && decide (e.2.1 < g.vertexCount)
      && decide (e.1 ≠ e.2.1))
  && decide (g.edges.map normEnds).Nodup

end CGraph

/-- All partial injective mappings (as association lists) whose query
indices are drawn in order from `qs` and whose target indices are drawn
without repetition from `avail`.  This is the fixed enumeration order of
the backtracking search (spec §4.4): each query vertex in turn is either
skipped or assigned an unused target vertex. -/
def pmaps : List Nat → List Nat → List (List (Nat × Nat))
  | [], _ => [[]]
  | q :: qs, avail =>
      pmaps qs avail
        ++ avail.flatMap (fun t =>
            (pmaps qs (avail.erase t)).map (fun m => (q, t) :: m))

/-- The candidate mappings between two graphs, in the solver's fixed
search order. -/
def candidatesFor {V E V2 E2 : Type} (a : CGraph V E) (b : CGraph V2 E2) :
    List (List (Nat × Nat)) :=
  pmaps (List.range a.vertexCount) (List.range b.vertexCount)

section Mappings

variable {V E V2 E2 : Type} {α : Type}

/-- Vertex-level compatibility of one mapped pair: both indices are in
range and the attributes are compatible. -/
def vPairOK (vOK : V → V2 → Bool) (a : CGraph V E) (b : CGraph V2 E2)
    (p : Nat × Nat) : Bool :=
  match a.vattrs[p.1]?, b.vattrs[p.2]? with
  | some x, some y => vOK x y
  | _, _ => false

/-- The attribute of the first edge joining `u` and `v` (either
orientation), if any. -/
def edgeBetween (g : CGraph V E) (u v : Nat) : Option E :=
  (g.edges.find? (fun e =>
      (decide (e.1 = u) && decide (e.2.1 = v))
        || (decide (e.1 = v) && decide (e.2.1 = u)))).map
    (fun e => e.2.2)

/-- Compatibility of two optional edges for the induced condition: an
edge is present on one side iff it is present on the other, with
compatible attributes when both are present (spec §4.4). -/
def optCompat (eOK : E → E2 → Bool) : Option E → Option E2 → Bool
  | none, none => true
  | some x, some y => eOK x y
  | _, _ => false

/-- A valid common-induced-subgraph mapping (spec §4.4): injective in
both directions, vertex-compatible on every mapped pair, and
edge-presence-iff between every pair of mapped vertices. -/
def isCIMapping (vOK : V → V2 → Bool) (eOK : E → E2 → Bool)
    (a : CGraph V E) (b : CGraph V2 E2) (m : List (Nat × Nat)) : Bool :=
  decide (m.map Prod.fst).Nodup && decide (m.map Prod.snd).Nodup
    && m.all (vPairOK vOK a b)
    && m.all (fun p => m.all (fun q =>
        optCompat eOK (edgeBetween a p.1 q.1) (edgeBetween b p.2 q.2)))

/-- A valid common-edge-subgraph mapping (spec §4.4): injective in both
directions and vertex-compatible; connectivity may otherwise differ,
only shared edges are counted. -/
def isCEMapping (vOK : V → V2 → Bool)
    (a : CGraph V E) (b : CGraph V2 E2) (m : List (Nat × Nat)) : Bool :=
  decide (m.map Prod.fst).Nodup && decide (m.map Prod.snd).Nodup
    && m.all (vPairOK vOK a b)

/-- `(q, t)` is one of the mapped pairs of `m`. -/
def pairMapped (m : List (Nat × Nat)) (q t : Nat) : Bool :=
  m.any (fun p => decide (p.1 = q) && decide (p.2 = t))

/-- An edge of `a` and an edge of `b` are matched under `m`: attributes
compatible and `m` maps the endpoints of one onto the endpoints of the
other, in either orientation. -/
def edgeMatched (eOK : E → E2 → Bool) (m : List (Nat × Nat))
    (ea : Nat × Nat × E) (eb : Nat × Nat × E2) : Bool :=
  eOK ea.2.2 eb.2.2
    && ((pairMapped m ea.1 eb.1 && pairMapped m ea.2.1 eb.2.1)
      || (pairMapped m ea.1 eb.2.1 && pairMapped m ea.2.1 eb.1))

/-- Number of (a-edge, b-edge) pairs matched under `m`; for valid
graphs this is the number of edges shared by the two graphs under the
mapping — the MCES objective of spec §4.4. -/
def sharedPairs (eOK : E → E2 → Bool)
    (a : CGraph V E) (b : CGraph V2 E2) (m : List (Nat × Nat)) : Nat :=
  (a.edges.map (fun ea => b.edges.countP (edgeMatched eOK m ea))).sum

/-- A full substructure embedding (spec §4.3): a total injective
vertex-compatible mapping of the pattern's vertices under which every
pattern edge has a compatible target edge between its images. -/
def substructOK (vOK : V → V2 → Bool) (eOK : E → E2 → Bool)
    (p : CGraph V E) (t : CGraph V2 E2) (m : List (Nat × Nat)) : Bool :=
  isCEMapping vOK p t m
    && decide (m.length = p.vertexCount)
    && p.edges.all (fun ea => t.edges.any (edgeMatched eOK m ea))

/-- Modelled from the spec (§4.3): exact isomorphism test — equal
vertex and edge counts, and some total mapping that is a common induced
subgraph mapping under attribute equality.  (The C entry point returns
this as an int 0/1.) -/
def has_exact_match (a b : Molecule) : Bool :=
  decide (a.vertexCount = b.vertexCount) && decide (a.edgeCount = b.edgeCount)
    && (candidatesFor a b).any (fun m =>
        isCIMapping (fun x y => x == y) (fun x y => x == y) a b m
          && decide (m.length = a.vertexCount))

/-- Modelled from the spec (§4.3): substructure match of a pattern into
a molecule. -/
def has_substruct_match (p : QPattern) (t : Molecule) : Bool :=
  (candidatesFor p t).any (substructOK VConstr.matchesV EConstr.matchesE p t)

/-- One step of the best-so-far accumulation of the branch-and-bound
search (spec §4.4): a candidate replaces the incumbent only when it is
valid and strictly better, so ties keep the first-found mapping. -/
def stepBest (score : α → Nat) (valid : α → Bool)
    (acc : Option α) (m : α) : Option α :=
  match acc with
  | none => if valid m then some m else none
  | some m0 => if valid m && decide (score m0 < score m) then some m else some m0

/-- Best-so-far over an explored candidate list, in fixed order. -/
def searchBest (score : α → Nat) (valid : α → Bool) (l : List α) : Option α :=
  l.foldl (stepBest score valid) none

/-- Maximum of a list of naturals (0 for the empty list). -/
def listMaxN (l : List Nat) : Nat := l.foldr max 0

/-- The optimal score among the valid candidates of `l`. -/
def bestVal (score : α → Nat) (valid : α → Bool) (l : List α) : Nat :=
  listMaxN ((l.filter valid).map score)

/-- The first candidate, in the fixed order, attaining the optimal
score among the valid candidates of `l`. -/
def firstMaxBy (score : α → Nat) (valid : α → Bool) (l : List α) : Option α :=
  l.find? (fun m => valid m && decide (score m = bestVal score valid l))

end Mappings

/-- Result of a deadline-bounded common-subgraph search (spec §4.4):
best size found, witness mapping, and the exhaustiveness flag. -/
structure SolveResult where
  size : Nat
  mapping : List (Nat × Nat)
  exhaustive : Bool
deriving DecidableEq, Repr

/-- Modelled from the spec (§3 SearchBudget, §4.4): the solver examines
candidates in the fixed order, checking the budget at every step; on
exhaustion it returns the best mapping found so far, and it reports
whether the search completed. -/
def tdSolve (score : List (Nat × Nat) → Nat)
    (valid : List (Nat × Nat) → Bool)
    (cands : List (List (Nat × Nat))) (budget : Nat) : SolveResult :=
  match searchBest score valid (cands.take budget) with
  | none => ⟨0, [], decide (cands.length ≤ budget)⟩
  | some m => ⟨score m, m, decide (cands.length ≤ budget)⟩

/-- The MCIS solver between two molecules. -/
def mcisSolve (a b : Molecule) (budget : Nat) : SolveResult :=
  tdSolve List.length (isCIMapping (fun x y => x == y) (fun x y => x == y) a b)
    (candidatesFor a b) budget

/-- The MCES solver between two molecules. -/
def mcesSolve (a b : Molecule) (budget : Nat) : SolveResult :=
  tdSolve (sharedPairs (fun x y => x == y) a b)
    (isCEMapping (fun x y => x == y) a b) (candidatesFor a b) budget

/-- The MCES solver between a pattern and a molecule (the C boundary
dispatches on the serialized input; this instantiation uses the
asymmetric constraint compatibility). -/
def mcesSolveQ (p : QPattern) (t : Molecule) (budget : Nat) : SolveResult :=
  tdSolve (sharedPairs EConstr.matchesE p t)
    (isCEMapping VConstr.matchesV p t) (candidatesFor p t) budget

/-- `tdmcis_size` of the C boundary: only the size, as a C int. -/
def tdmcis_size (a b : Molecule) (budget : Nat) : Int :=
  ((mcisSolve a b budget).size : Int)

/-- `tdmces_size` of the C boundary: only the size, as a C int. -/
def tdmces_size (a b : Molecule) (budget : Nat) : Int :=
  ((mcesSolve a b budget).size : Int)

/-- `tdmces_size` applied to a pattern query against a molecule. -/
def tdmces_size_q (p : QPattern) (t : Molecule) (budget : Nat) : Int :=
  ((mcesSolveQ p t budget).size : Int)

/-- Modelled from the spec (§4.5): Tanimoto similarity from a common
size `c` and the two element counts: `c / (na + nb - c)`, defined as 1
when both counts are zero and as 0 when the denominator would otherwise
vanish. -/
def tanimotoQ (c na nb : Nat) : ℚ :=
  if (na : ℚ) + (nb : ℚ) - (c : ℚ) = 0 then (if na = 0 ∧ nb = 0 then 1 else 0)
  else (c : ℚ) / ((na : ℚ) + (nb : ℚ) - (c : ℚ))

/-- MCIS-based Tanimoto similarity over vertex counts. -/
def tdmcis_tanimoto (a b : Molecule) (budget : Nat) : ℚ :=
  tanimotoQ (mcisSolve a b budget).size a.vertexCount b.vertexCount

/-- MCES-based Tanimoto similarity over edge counts. -/
def tdmces_tanimoto (a b : Molecule) (budget : Nat) : ℚ :=
  tanimotoQ (mcesSolve a b budget).size a.edgeCount b.edgeCount

/-- Modelled from the spec (§4.5): distance = larger element count
minus common size, a C int, never negative. -/
def tdmcis_dist (a b : Molecule) (budget : Nat) : Int :=
  (max a.vertexCount b.vertexCount : Int) - ((mcisSolve a b budget).size : Int)

/-- Edge-kind distance. -/
def tdmces_dist (a b : Molecule) (budget : Nat) : Int :=
  (max a.edgeCount b.edgeCount : Int) - ((mcesSolve a b budget).size : Int)

/-- Modelled from the spec (§4.5, §9): graph-likeness score — the
Tanimoto similarity damped by a size-asymmetry penalty `min/max` of the
element counts.  The spec leaves the exact formula open (§9) and only
requires a bounded composite monotonic in the common size; this is one
such formula. -/
def glsQ (c na nb : Nat) : ℚ :=
  tanimotoQ c na nb
    * (if max na nb = 0 then 1 else ((min na nb : ℚ) / (max na nb : ℚ)))

/-- Vertex-kind GLS of the C boundary. -/
def tdmcis_gls (a b : Molecule) (budget : Nat) : ℚ :=
  glsQ (mcisSolve a b budget).size a.vertexCount b.vertexCount

/-- Edge-kind GLS of the C boundary. -/
def tdmces_gls (a b : Molecule) (budget : Nat) : ℚ :=
  glsQ (mcesSolve a b budget).size a.edgeCount b.edgeCount

/-- One entry of the batch GLS result: a score or an error marker. -/
inductive GlsEntry where
  | score : ℚ → GlsEntry
  | errmark : GlsEntry
deriving DecidableEq, Repr

/-- Modelled from the spec (§4.5, §7): batch GLS — each target is
validated and scored independently, in input order; a malformed target
yields an error marker at its own position without aborting the rest. -/
def tdmces_gls_batch (q : Molecule) (targets : List Molecule) (budget : Nat) :
    List GlsEntry :=
  match targets with
  | [] => []
  | t :: ts =>
      (if t.validG then GlsEntry.score (tdmces_gls q t budget)
       else GlsEntry.errmark) :: tdmces_gls_batch q ts budget

section ListToolbox

variable {α : Type}

theorem listMaxN_cons (y : Nat) (ys : List Nat) :
    listMaxN (y :: ys) = max y (listMaxN ys) := rfl

theorem le_listMaxN_of_mem {x : Nat} {l : List Nat} (h : x ∈ l) :
    x ≤ listMaxN l := by
  induction l with
  | nil => cases h
  | cons y ys ih =>
      rw [listMaxN_cons]
      rcases List.mem_cons.mp h with rfl | h2
      · exact le_max_left _ _
      · exact (ih h2).trans (le_max_right _ _)

theorem listMaxN_le {k : Nat} {l : List Nat} (h : ∀ x ∈ l, x ≤ k) :
    listMaxN l ≤ k := by
  induction l with
  | nil => exact Nat.zero_le _
  | cons y ys ih =>
      rw [listMaxN_cons]
      exact max_le (h y (List.mem_cons_self _ _))
        (ih fun x hx => h x (List.mem_cons_of_mem _ hx))

theorem listMaxN_mem {l : List Nat} (h : l ≠ []) : listMaxN l ∈ l := by
  induction l with
  | nil => exact absurd rfl h
  | cons y ys ih =>
      rw [listMaxN_cons]
      cases ys with
      | nil => simp [listMaxN]
      | cons z zs =>
          rcases le_total (listMaxN (z :: zs)) y with h1 | h1
          · rw [max_eq_left h1]; exact List.mem_cons_self _ _
          · rw [max_eq_right h1]
            exact List.mem_cons_of_mem _ (ih (by simp))

theorem score_le_bestVal (score : α → Nat) (valid : α → Bool)
    {m : α} {l : List α} (hm : m ∈ l) (hv : valid m = true) :
    score m ≤ bestVal score valid l :=
  le_listMaxN_of_mem (List.mem_map_of_mem _ (List.mem_filter.mpr ⟨hm, hv⟩))

theorem bestVal_le (score : α → Nat) (valid : α → Bool)
    {k : Nat} {l : List α} (h : ∀ m ∈ l, valid m = true → score m ≤ k) :
    bestVal score valid l ≤ k := by
  refine listMaxN_le ?_
  intro x hx
  rcases List.mem_map.mp hx with ⟨m, hm, rfl⟩
  rcases List.mem_filter.mp hm with ⟨hm1, hm2⟩
  exact h m hm1 hm2

theorem bestVal_attained (score : α → Nat) (valid : α → Bool) (l : List α) :
    bestVal score valid l = 0
      ∨ ∃ m ∈ l, valid m = true ∧ score m = bestVal score valid l := by
  cases hl : (l.filter valid).map score with
  | nil => left; simp [bestVal, hl, listMaxN]
  | cons y ys =>
      right
      have hmem : listMaxN ((l.filter valid).map score)
          ∈ (l.filter valid).map score := by
        rw [hl]; exact listMaxN_mem (by simp)
      rcases List.mem_map.mp hmem with ⟨m, hm, hsc⟩
      rcases List.mem_filter.mp hm with ⟨hm1, hm2⟩
      exact ⟨m, hm1, hm2, hsc⟩

theorem bestVal_cons_pos (score : α → Nat) (valid : α → Bool)
    {y : α} {ys : List α} (hv : valid y = true) :
    bestVal score valid (y :: ys) = max (score y) (bestVal score valid ys) := by
  simp [bestVal, List.filter_cons, hv, listMaxN_cons]

theorem bestVal_cons_neg (score : α → Nat) (valid : α → Bool)
    {y : α} {ys : List α} (hv : valid y = false) :
    bestVal score valid (y :: ys) = bestVal score valid ys := by
  simp [bestVal, List.filter_cons, hv]

theorem countP_le_one_of_nodup {p : α → Bool} {l : List α}
    (hnd : l.Nodup)
    (h : ∀ x ∈ l, p x = true → ∀ y ∈ l, p y = true → x = y) :
    l.countP p ≤ 1 := by
  induction l with
  | nil => simp
  | cons a l ih =>
      rw [List.countP_cons]
      by_cases hp : p a = true
      · have hzero : l.countP p = 0 := by
          rw [List.countP_eq_zero]
          intro x hx hpx
          exact absurd (h x (List.mem_cons_of_mem _ hx) hpx a
            (List.mem_cons_self _ _) hp ▸ hx)
            (by
              have := h x (List.mem_cons_of_mem _ hx) hpx a
                (List.mem_cons_self _ _) hp
              subst this
              exact (List.nodup_cons.mp hnd).1)
        simp [hzero, hp]
      · have hp0 : p a = false := by
          cases hpa : p a
          · rfl
          · exact absurd hpa hp
        simp [hp0]
        exact ih (List.nodup_cons.mp hnd).2
          (fun x hx hpx y hy hpy =>
            h x (List.mem_cons_of_mem _ hx) hpx y (List.mem_cons_of_mem _ hy) hpy)

end ListToolbox

section SearchLemmas

variable {α : Type} (score : α → Nat) (valid : α → Bool)

/-- Score of an optional incumbent (0 when none found yet). -/
def optScoreOf (score : α → Nat) : Option α → Nat
  | none => 0
  | some m => score m

theorem band_true_iff {a b : Bool} : (a && b) = true ↔ a = true ∧ b = true := by
  simp

theorem foldl_stepBest_acc_or_mem : ∀ (l : List α) (acc : Option α),
    l.foldl (stepBest score valid) acc = acc
      ∨ ∃ m ∈ l, valid m = true
          ∧ l.foldl (stepBest score valid) acc = some m := by
  intro l
  induction l with
  | nil => intro acc; exact Or.inl rfl
  | cons x xs ih =>
      intro acc
      rcases ih (stepBest score valid acc x) with h | ⟨m, hm, hv, he⟩
      · rw [List.foldl_cons, h]
        cases acc with
        | none =>
            cases hvx : valid x with
            | false => left; simp [stepBest, hvx]
            | true =>
                right
                exact ⟨x, List.mem_cons_self _ _, hvx, by simp [stepBest, hvx]⟩
        | some m0 =>
            cases hc : (valid x && decide (score m0 < score x)) with
            | false => left; simp [stepBest, hc]
            | true =>
                right
                exact ⟨x, List.mem_cons_self _ _, (band_true_iff.mp hc).1,
                  by simp [stepBest, hc]⟩
      · right
        exact ⟨m, List.mem_cons_of_mem _ hm, hv, by rw [List.foldl_cons]; exact he⟩

theorem searchBest_some_spec {l : List α} {m : α}
    (h : searchBest score valid l = some m) : m ∈ l ∧ valid m = true := by
  rcases foldl_stepBest_acc_or_mem score valid l none with h0 | ⟨m2, hm2, hv2, he2⟩
  · rw [searchBest, h0] at h; cases h
  · rw [searchBest, he2] at h
    injection h with h
    subst h
    exact ⟨hm2, hv2⟩

theorem optScoreOf_stepBest_ge (acc : Option α) (x : α) :
    optScoreOf score acc ≤ optScoreOf score (stepBest score valid acc x) := by
  cases acc with
  | none => exact Nat.zero_le _
  | some m0 =>
      cases hc : (valid x && decide (score m0 < score x)) with
      | false => simp [stepBest, hc]
      | true =>
          simp [stepBest, hc, optScoreOf]
          exact Nat.le_of_lt (of_decide_eq_true (band_true_iff.mp hc).2)

theorem optScoreOf_foldl_ge : ∀ (l : List α) (acc : Option α),
    optScoreOf score acc
      ≤ optScoreOf score (l.foldl (stepBest score valid) acc) := by
  intro l
  induction l with
  | nil => intro acc; exact le_refl _
  | cons x xs ih =>
      intro acc
      rw [List.foldl_cons]
      exact (optScoreOf_stepBest_ge score valid acc x).trans (ih _)

theorem score_le_optScoreOf_foldl {m : α} : ∀ (l : List α) (acc : Option α),
    m ∈ l → valid m = true →
    score m ≤ optScoreOf score (l.foldl (stepBest score valid) acc) := by
  intro l
  induction l with
  | nil => intro acc hm _; cases hm
  | cons x xs ih =>
      intro acc hm hv
      rw [List.foldl_cons]
      rcases List.mem_cons.mp hm with rfl | h2
      · refine le_trans ?_ (optScoreOf_foldl_ge score valid xs _)
        cases acc with
        | none => simp [stepBest, optScoreOf, hv]
        | some m0 =>
            by_cases hlt : score m0 < score m
            · simp [stepBest, optScoreOf, hv, hlt]
            · simp [stepBest, optScoreOf, hv, hlt]
              exact Nat.le_of_not_lt hlt
      · exact ih _ h2 hv

theorem optScoreOf_stepBest_le {k : Nat} {acc : Option α} {x : α}
    (hacc : optScoreOf score acc ≤ k) (hx : valid x = true → score x ≤ k) :
    optScoreOf score (stepBest score valid acc x) ≤ k := by
  cases acc with
  | none =>
      cases hvx : valid x with
      | false => simp [stepBest, hvx, optScoreOf]
      | true => simp [stepBest, hvx, optScoreOf]; exact hx hvx
  | some m0 =>
      cases hc : (valid x && decide (score m0 < score x)) with
      | false => simpa [stepBest, hc] using hacc
      | true =>
          simp [stepBest, hc, optScoreOf]
          exact hx (band_true_iff.mp hc).1

theorem optScoreOf_foldl_le {k : Nat} : ∀ (l : List α) (acc : Option α),
    optScoreOf score acc ≤ k → (∀ m ∈ l, valid m = true → score m ≤ k) →
    optScoreOf score (l.foldl (stepBest score valid) acc) ≤ k := by
  intro l
  induction l with
  | nil => intro acc h _; exact h
  | cons x xs ih =>
      intro acc hacc hl
      rw [List.foldl_cons]
      exact ih _
        (optScoreOf_stepBest_le score valid hacc
          (fun hv => hl x (List.mem_cons_self _ _) hv))
        (fun m hm hv => hl m (List.mem_cons_of_mem _ hm) hv)

theorem foldl_stepBest_no_improve {m0 : α} : ∀ (l : List α),
    (∀ m ∈ l, valid m = true → score m ≤ score m0) →
    l.foldl (stepBest score valid) (some m0) = some m0 := by
  intro l
  induction l with
  | nil => intro _; rfl
  | cons x xs ih =>
      intro h
      rw [List.foldl_cons]
      have hc : (valid x && decide (score m0 < score x)) = false := by
        cases hvx : valid x with
        | false => simp
        | true =>
            simp
            exact h x (List.mem_cons_self _ _) hvx
      rw [show stepBest score valid (some m0) x = some m0 by simp [stepBest, hc]]
      exact ih (fun m hm hv => h m (List.mem_cons_of_mem _ hm) hv)

theorem foldl_stepBest_forget {m0 : α} : ∀ (l : List α),
    score m0 < bestVal score valid l →
    l.foldl (stepBest score valid) (some m0)
      = l.foldl (stepBest score valid) none := by
  intro l
  induction l generalizing m0 with
  | nil => intro h; exact absurd h (by simp [bestVal, listMaxN])
  | cons y ys ih =>
      intro h
      cases hvy : valid y with
      | false =>
          rw [bestVal_cons_neg score valid hvy] at h
          rw [List.foldl_cons, List.foldl_cons,
            show stepBest score valid (some m0) y = some m0 by
              simp [stepBest, hvy],
            show stepBest score valid none y = none by simp [stepBest, hvy]]
          exact ih h
      | true =>
          rw [bestVal_cons_pos score valid hvy] at h
          rw [List.foldl_cons, List.foldl_cons,
            show stepBest score valid none y = some y by simp [stepBest, hvy]]
          by_cases hlt : score m0 < score y
          · rw [show stepBest score valid (some m0) y = some y by
              simp [stepBest, hvy, hlt]]
          · rw [show stepBest score valid (some m0) y = some m0 by
              simp [stepBest, hvy, hlt]]
            have hy0 : score y ≤ score m0 := Nat.le_of_not_lt hlt
            rcases le_total (bestVal score valid ys) (score y) with hc | hc
            · rw [max_eq_left hc] at h
              exact absurd h hlt
            · rw [max_eq_right hc] at h
              have hbys : score y < bestVal score valid ys := by omega
              rw [ih (show score m0 < bestVal score valid ys by omega), ih hbys]

end SearchLemmas

section BridgeLemmas

variable {α : Type} (score : α → Nat) (valid : α → Bool)

/-- The best-so-far search with strict-improvement replacement returns
exactly the first candidate, in the fixed order, attaining the optimal
score: the deterministic tie-breaking rule of spec §4.4. -/
theorem searchBest_eq_firstMaxBy : ∀ (l : List α),
    searchBest score valid l = firstMaxBy score valid l := by
  intro l
  induction l with
  | nil => rfl
  | cons x xs ih =>
      cases hvx : valid x with
      | false =>
          have hl : searchBest score valid (x :: xs) = searchBest score valid xs := by
            rw [searchBest, List.foldl_cons,
              show stepBest score valid none x = none by simp [stepBest, hvx]]
            rfl
          have hr : firstMaxBy score valid (x :: xs) = firstMaxBy score valid xs := by
            rw [firstMaxBy, firstMaxBy,
              bestVal_cons_neg score valid hvx,
              List.find?_cons_of_neg _ (by simp [hvx])]
          rw [hl, hr]
          exact ih
      | true =>
          have hstep : searchBest score valid (x :: xs)
              = xs.foldl (stepBest score valid) (some x) := by
            rw [searchBest, List.foldl_cons,
              show stepBest score valid none x = some x by simp [stepBest, hvx]]
          rcases le_or_lt (bestVal score valid xs) (score x) with h1 | h2
          · have hbv : bestVal score valid (x :: xs) = score x := by
              rw [bestVal_cons_pos score valid hvx, max_eq_left h1]
            have hr : firstMaxBy score valid (x :: xs) = some x := by
              rw [firstMaxBy, hbv]
              exact List.find?_cons_of_pos _ (by simp [hvx])
            rw [hstep, hr]
            exact foldl_stepBest_no_improve score valid xs
              (fun m hm hv => (score_le_bestVal score valid hm hv).trans h1)
          · have hbv : bestVal score valid (x :: xs) = bestVal score valid xs := by
              rw [bestVal_cons_pos score valid hvx, max_eq_right (Nat.le_of_lt h2)]
            have hr : firstMaxBy score valid (x :: xs) = firstMaxBy score valid xs := by
              rw [firstMaxBy, hbv,
                List.find?_cons_of_neg _ (by simp [hvx]; omega)]
              rfl
            rw [hstep, hr, foldl_stepBest_forget score valid xs h2]
            exact ih

/-- With the whole candidate list explored, the score of the search
result is the optimum over valid candidates. -/
theorem optScoreOf_searchBest (l : List α) :
    optScoreOf score (searchBest score valid l) = bestVal score valid l := by
  rw [searchBest_eq_firstMaxBy]
  cases h : firstMaxBy score valid l with
  | none =>
      rcases bestVal_attained score valid l with h0 | ⟨m, hm, hv, hs⟩
      · simp [optScoreOf, h0]
      · exfalso
        rcases List.find?_eq_none.mp h m hm with hfalse
        simp [hv, hs] at hfalse
  | some m =>
      have hp := List.find?_some h
      have : valid m = true ∧ score m = bestVal score valid l := by
        constructor
        · exact (band_true_iff.mp hp).1
        · exact of_decide_eq_true (band_true_iff.mp hp).2
      simp [optScoreOf, this.2]

end BridgeLemmas

/-- The size field of a bounded solve is the optimum over the valid
candidates that the budget allowed to be explored. -/
theorem tdSolve_size_eq (score valid : List (Nat × Nat) → _)
    (cands : List (List (Nat × Nat))) (budget : Nat) :
    (tdSolve score valid cands budget).size
      = bestVal score valid (cands.take budget) := by
  rw [tdSolve, ← optScoreOf_searchBest score valid (cands.take budget)]
  cases h : searchBest score valid (cands.take budget) with
  | none => simp [optScoreOf]
  | some m => simp [optScoreOf]

/-- The exhaustiveness flag is exactly "the budget covered the whole
candidate list". -/
theorem tdSolve_exhaustive_eq (score valid : List (Nat × Nat) → _)
    (cands : List (List (Nat × Nat))) (budget : Nat) :
    (tdSolve score valid cands budget).exhaustive
      = decide (cands.length ≤ budget) := by
  rw [tdSolve]
  cases h : searchBest score valid (cands.take budget) with
  | none => rfl
  | some m => rfl

/-- The mapping field of a bounded solve. -/
theorem tdSolve_mapping_eq (score valid : List (Nat × Nat) → _)
    (cands : List (List (Nat × Nat))) (budget : Nat) :
    (tdSolve score valid cands budget).mapping
      = (searchBest score valid (cands.take budget)).getD [] := by
  rw [tdSolve]
  cases h : searchBest score valid (cands.take budget) with
  | none => rfl
  | some m => rfl

section PmapsLemmas

/-- The identity pairing on `qs` is one of the enumerated candidate
mappings whenever every query vertex is available as a target. -/
theorem pmaps_mem_id : ∀ (qs avail : List Nat), qs.Nodup →
    (∀ q ∈ qs, q ∈ avail) → (qs.map (fun q => (q, q))) ∈ pmaps qs avail := by
  intro qs
  induction qs with
  | nil => intro avail _ _; simp [pmaps]
  | cons q qs ih =>
      intro avail hnd h
      rw [pmaps, List.map_cons]
      refine List.mem_append_right _ ?_
      refine List.mem_flatMap.mpr ⟨q, h q (List.mem_cons_self _ _), ?_⟩
      refine List.mem_map.mpr ⟨qs.map (fun q => (q, q)), ?_, rfl⟩
      refine ih (avail.erase q) (List.nodup_cons.mp hnd).2 ?_
      intro x hx
      exact (List.mem_erase_of_ne
        (fun hxq => (List.nodup_cons.mp hnd).1 (by rw [← hxq]; exact hx))).mpr
        (h x (List.mem_cons_of_mem _ hx))

/-- Completeness of the enumeration: every injective mapping whose
query indices come from `qs` and target indices from `avail` appears in
`pmaps qs avail` up to reordering of its pairs. -/
theorem exists_perm_mem_pmaps : ∀ (qs : List Nat) (avail : List Nat)
    (m : List (Nat × Nat)), qs.Nodup →
    (m.map Prod.fst).Nodup → (∀ p ∈ m, p.1 ∈ qs) →
    (m.map Prod.snd).Nodup → (∀ p ∈ m, p.2 ∈ avail) →
    ∃ m2 ∈ pmaps qs avail, m2.Perm m := by
  intro qs
  induction qs with
  | nil =>
      intro avail m _ _ h1 _ _
      cases m with
      | nil => exact ⟨[], by simp [pmaps], List.Perm.refl _⟩
      | cons p m0 => cases h1 p (List.mem_cons_self _ _)
  | cons q qs ih =>
      intro avail m hndqs hf hfq hs hsa
      by_cases hq : q ∈ m.map Prod.fst
      · obtain ⟨p, hpm, hpq⟩ := List.mem_map.mp hq
        obtain ⟨p1, p2⟩ := p
        simp only at hpq
        subst hpq
        obtain ⟨m1, hperm⟩ : ∃ m1, m.Perm ((p1, p2) :: m1) :=
          ⟨_, List.perm_cons_erase hpm⟩
        have hfcons : (((p1, p2) :: m1).map Prod.fst).Nodup :=
          ((hperm.map Prod.fst).nodup_iff).mp hf
        have hscons : (((p1, p2) :: m1).map Prod.snd).Nodup :=
          ((hperm.map Prod.snd).nodup_iff).mp hs
        have hq1 : p1 ∉ m1.map Prod.fst :=
          (List.nodup_cons.mp (by simpa using hfcons)).1
        have hp2 : p2 ∉ m1.map Prod.snd :=
          (List.nodup_cons.mp (by simpa using hscons)).1
        have hsubm : ∀ p3 ∈ m1, p3 ∈ m :=
          fun p3 h3 => (hperm.mem_iff).mpr (List.mem_cons_of_mem _ h3)
        have ih2 := ih (avail.erase p2) m1
          (List.nodup_cons.mp hndqs).2
          (by simpa using (List.nodup_cons.mp (by simpa using hfcons)).2)
          (by
            intro p3 h3
            have h4 := hfq p3 (hsubm p3 h3)
            rcases List.mem_cons.mp h4 with h5 | h5
            · exact absurd (h5 ▸ List.mem_map_of_mem Prod.fst h3) hq1
            · exact h5)
          (by simpa using (List.nodup_cons.mp (by simpa using hscons)).2)
          (by
            intro p3 h3
            refine (List.mem_erase_of_ne ?_).mpr (hsa p3 (hsubm p3 h3))
            intro h5
            exact hp2 (h5 ▸ List.mem_map_of_mem Prod.snd h3))
        obtain ⟨m2, hm2, hm2p⟩ := ih2
        refine ⟨(p1, p2) :: m2, ?_, ?_⟩
        · rw [pmaps]
          refine List.mem_append_right _ ?_
          refine List.mem_flatMap.mpr ⟨p2, hsa (p1, p2) hpm, ?_⟩
          exact List.mem_map.mpr ⟨m2, hm2, rfl⟩
        · exact (hm2p.cons (p1, p2)).trans hperm.symm
      · have ih2 := ih avail m (List.nodup_cons.mp hndqs).2 hf
          (by
            intro p3 h3
            rcases List.mem_cons.mp (hfq p3 h3) with h5 | h5
            · exact absurd (h5 ▸ List.mem_map_of_mem Prod.fst h3) hq
            · exact h5)
          hs hsa
        obtain ⟨m2, hm2, hm2p⟩ := ih2
        exact ⟨m2, by rw [pmaps]; exact List.mem_append_left _ hm2, hm2p⟩

end PmapsLemmas

section PredicateLemmas

variable {V E V2 E2 : Type} {α : Type} {β : Type}

theorem any_congr {l : List α} {p q : α → Bool}
    (h : ∀ x ∈ l, p x = q x) : l.any p = l.any q := by
  induction l with
  | nil => rfl
  | cons x xs ih =>
      rw [List.any_cons, List.any_cons, h x (List.mem_cons_self _ _),
        ih (fun y hy => h y (List.mem_cons_of_mem _ hy))]

theorem isCIMapping_iff (vOK : V → V2 → Bool) (eOK : E → E2 → Bool)
    (a : CGraph V E) (b : CGraph V2 E2) (m : List (Nat × Nat)) :
    isCIMapping vOK eOK a b m = true ↔
      (m.map Prod.fst).Nodup ∧ (m.map Prod.snd).Nodup
        ∧ (∀ p ∈ m, vPairOK vOK a b p = true)
        ∧ (∀ p ∈ m, ∀ q ∈ m,
            optCompat eOK (edgeBetween a p.1 q.1) (edgeBetween b p.2 q.2)
              = true) := by
  simp [isCIMapping, List.all_eq_true, and_assoc]

theorem isCEMapping_iff (vOK : V → V2 → Bool)
    (a : CGraph V E) (b : CGraph V2 E2) (m : List (Nat × Nat)) :
    isCEMapping vOK a b m = true ↔
      (m.map Prod.fst).Nodup ∧ (m.map Prod.snd).Nodup
        ∧ (∀ p ∈ m, vPairOK vOK a b p = true) := by
  simp [isCEMapping, List.all_eq_true, and_assoc]

theorem substructOK_iff (vOK : V → V2 → Bool) (eOK : E → E2 → Bool)
    (p : CGraph V E) (t : CGraph V2 E2) (m : List (Nat × Nat)) :
    substructOK vOK eOK p t m = true ↔
      isCEMapping vOK p t m = true ∧ m.length = p.vertexCount
        ∧ (∀ ea ∈ p.edges, t.edges.any (edgeMatched eOK m ea) = true) := by
  simp [substructOK, List.all_eq_true, and_assoc]

theorem vPairOK_lt {vOK : V → V2 → Bool} {a : CGraph V E} {b : CGraph V2 E2}
    {p : Nat × Nat} (h : vPairOK vOK a b p = true) :
    p.1 < a.vertexCount ∧ p.2 < b.vertexCount := by
  cases h1 : a.vattrs[p.1]? with
  | none => rw [vPairOK, h1] at h; cases h
  | some x =>
      cases h2 : b.vattrs[p.2]? with
      | none => rw [vPairOK, h1, h2] at h; cases h
      | some y =>
          constructor
          · exact (List.getElem?_eq_some_iff.mp h1).1
          · exact (List.getElem?_eq_some_iff.mp h2).1

theorem length_le_of_fst_nodup {m : List (Nat × Nat)} {n : Nat}
    (hnd : (m.map Prod.fst).Nodup) (h : ∀ p ∈ m, p.1 < n) :
    m.length ≤ n := by
  have hsub : m.map Prod.fst ⊆ List.range n := by
    intro x hx
    rcases List.mem_map.mp hx with ⟨p, hp, rfl⟩
    exact List.mem_range.mpr (h p hp)
  have hle := (List.subperm_of_subset hnd hsub).length_le
  simpa using hle

theorem length_le_of_snd_nodup {m : List (Nat × Nat)} {n : Nat}
    (hnd : (m.map Prod.snd).Nodup) (h : ∀ p ∈ m, p.2 < n) :
    m.length ≤ n := by
  have hsub : m.map Prod.snd ⊆ List.range n := by
    intro x hx
    rcases List.mem_map.mp hx with ⟨p, hp, rfl⟩
    exact List.mem_range.mpr (h p hp)
  have hle := (List.subperm_of_subset hnd hsub).length_le
  simpa using hle

/-- Any valid common-induced mapping has size at most both vertex
counts. -/
theorem isCIMapping_length_le {vOK : V → V2 → Bool} {eOK : E → E2 → Bool}
    {a : CGraph V E} {b : CGraph V2 E2} {m : List (Nat × Nat)}
    (h : isCIMapping vOK eOK a b m = true) :
    m.length ≤ a.vertexCount ∧ m.length ≤ b.vertexCount := by
  obtain ⟨h1, h2, h3, _⟩ := (isCIMapping_iff vOK eOK a b m).mp h
  constructor
  · exact length_le_of_fst_nodup h1 (fun p hp => (vPairOK_lt (h3 p hp)).1)
  · exact length_le_of_snd_nodup h2 (fun p hp => (vPairOK_lt (h3 p hp)).2)

theorem isCIMapping_perm (vOK : V → V2 → Bool) (eOK : E → E2 → Bool)
    (a : CGraph V E) (b : CGraph V2 E2) {m m2 : List (Nat × Nat)}
    (hp : m.Perm m2) (h : isCIMapping vOK eOK a b m = true) :
    isCIMapping vOK eOK a b m2 = true := by
  obtain ⟨h1, h2, h3, h4⟩ := (isCIMapping_iff vOK eOK a b m).mp h
  refine (isCIMapping_iff vOK eOK a b m2).mpr ⟨?_, ?_, ?_, ?_⟩
  · exact ((hp.map Prod.fst).nodup_iff).mp h1
  · exact ((hp.map Prod.snd).nodup_iff).mp h2
  · exact fun p hp2 => h3 p (hp.mem_iff.mpr hp2)
  · exact fun p hp2 q hq2 => h4 p (hp.mem_iff.mpr hp2) q (hp.mem_iff.mpr hq2)

theorem isCEMapping_perm (vOK : V → V2 → Bool)
    (a : CGraph V E) (b : CGraph V2 E2) {m m2 : List (Nat × Nat)}
    (hp : m.Perm m2) (h : isCEMapping vOK a b m = true) :
    isCEMapping vOK a b m2 = true := by
  obtain ⟨h1, h2, h3⟩ := (isCEMapping_iff vOK a b m).mp h
  refine (isCEMapping_iff vOK a b m2).mpr ⟨?_, ?_, ?_⟩
  · exact ((hp.map Prod.fst).nodup_iff).mp h1
  · exact ((hp.map Prod.snd).nodup_iff).mp h2
  · exact fun p hp2 => h3 p (hp.mem_iff.mpr hp2)

/-- The pair list obtained by exchanging query and target sides. -/
def swapM (m : List (Nat × Nat)) : List (Nat × Nat) := m.map Prod.swap

theorem swapM_map_fst (m : List (Nat × Nat)) :
    (swapM m).map Prod.fst = m.map Prod.snd := by
  simp [swapM, List.map_map, Function.comp_def]

theorem swapM_map_snd (m : List (Nat × Nat)) :
    (swapM m).map Prod.snd = m.map Prod.fst := by
  simp [swapM, List.map_map, Function.comp_def]

theorem vPairOK_swap {vOK : V → V2 → Bool} {vOK2 : V2 → V → Bool}
    (hsv : ∀ x y, vOK x y = vOK2 y x)
    {a : CGraph V E} {b : CGraph V2 E2} {p : Nat × Nat}
    (h : vPairOK vOK a b p = true) :
    vPairOK vOK2 b a p.swap = true := by
  cases h1 : a.vattrs[p.1]? with
  | none => rw [vPairOK, h1] at h; cases h
  | some x =>
      cases h2 : b.vattrs[p.2]? with
      | none => rw [vPairOK, h1, h2] at h; cases h
      | some y =>
          have h3 : vOK x y = true := by rw [vPairOK, h1, h2] at h; exact h
          have h4 : vOK2 y x = true := by rw [← hsv]; exact h3
          rw [vPairOK]
          simp only [Prod.fst_swap, Prod.snd_swap]
          rw [h1, h2]
          exact h4

theorem optCompat_swap {eOK : E → E2 → Bool} {eOK2 : E2 → E → Bool}
    (hse : ∀ x y, eOK x y = eOK2 y x) {o1 : Option E} {o2 : Option E2}
    (h : optCompat eOK o1 o2 = true) : optCompat eOK2 o2 o1 = true := by
  cases o1 with
  | none =>
      cases o2 with
      | none => rfl
      | some y => cases h
  | some x =>
      cases o2 with
      | none => cases h
      | some y => rw [optCompat] at h ⊢; rw [← hse]; exact h

theorem isCIMapping_swap {vOK : V → V2 → Bool} {eOK : E → E2 → Bool}
    {vOK2 : V2 → V → Bool} {eOK2 : E2 → E → Bool}
    (hsv : ∀ x y, vOK x y = vOK2 y x) (hse : ∀ x y, eOK x y = eOK2 y x)
    {a : CGraph V E} {b : CGraph V2 E2} {m : List (Nat × Nat)}
    (h : isCIMapping vOK eOK a b m = true) :
    isCIMapping vOK2 eOK2 b a (swapM m) = true := by
  obtain ⟨h1, h2, h3, h4⟩ := (isCIMapping_iff vOK eOK a b m).mp h
  refine (isCIMapping_iff vOK2 eOK2 b a (swapM m)).mpr ⟨?_, ?_, ?_, ?_⟩
  · rw [swapM_map_fst]; exact h2
  · rw [swapM_map_snd]; exact h1
  · intro p hp
    rcases List.mem_map.mp hp with ⟨p0, hp0, rfl⟩
    have := vPairOK_swap hsv (h3 p0 hp0)
    exact this
  · intro p hp q hq
    rcases List.mem_map.mp hp with ⟨p0, hp0, rfl⟩
    rcases List.mem_map.mp hq with ⟨q0, hq0, rfl⟩
    simp only [Prod.fst_swap, Prod.snd_swap]
    exact optCompat_swap hse (h4 p0 hp0 q0 hq0)

theorem isCEMapping_swap {vOK : V → V2 → Bool} {vOK2 : V2 → V → Bool}
    (hsv : ∀ x y, vOK x y = vOK2 y x)
    {a : CGraph V E} {b : CGraph V2 E2} {m : List (Nat × Nat)}
    (h : isCEMapping vOK a b m = true) :
    isCEMapping vOK2 b a (swapM m) = true := by
  obtain ⟨h1, h2, h3⟩ := (isCEMapping_iff vOK a b m).mp h
  refine (isCEMapping_iff vOK2 b a (swapM m)).mpr ⟨?_, ?_, ?_⟩
  · rw [swapM_map_fst]; exact h2
  · rw [swapM_map_snd]; exact h1
  · intro p hp
    rcases List.mem_map.mp hp with ⟨p0, hp0, rfl⟩
    exact vPairOK_swap hsv (h3 p0 hp0)

end PredicateLemmas

section SharedPairsLemmas

variable {V E V2 E2 : Type} {α : Type} {β : Type}

theorem bool_eq_of_iff {a b : Bool} (h : a = true ↔ b = true) : a = b := by
  cases a <;> cases b <;> simp_all

theorem pairMapped_iff {m : List (Nat × Nat)} {q t : Nat} :
    pairMapped m q t = true ↔ (q, t) ∈ m := by
  simp only [pairMapped, List.any_eq_true, Bool.and_eq_true, decide_eq_true_eq]
  constructor
  · rintro ⟨⟨p1, p2⟩, hp, h1, h2⟩
    simp only at h1 h2
    subst h1
    subst h2
    exact hp
  · intro h
    exact ⟨(q, t), h, rfl, rfl⟩

theorem pairMapped_perm {m m2 : List (Nat × Nat)} (hp : m.Perm m2)
    (q t : Nat) : pairMapped m q t = pairMapped m2 q t := by
  apply bool_eq_of_iff
  rw [pairMapped_iff, pairMapped_iff]
  exact hp.mem_iff

theorem pairMapped_swapM (m : List (Nat × Nat)) (q t : Nat) :
    pairMapped (swapM m) q t = pairMapped m t q := by
  apply bool_eq_of_iff
  rw [pairMapped_iff, pairMapped_iff]
  constructor
  · intro h
    rcases List.mem_map.mp h with ⟨⟨p1, p2⟩, hp, heq⟩
    simp only [Prod.swap_prod_mk, Prod.mk.injEq] at heq
    obtain ⟨h1, h2⟩ := heq
    subst h1
    subst h2
    exact hp
  · intro h
    exact List.mem_map.mpr ⟨(t, q), h, rfl⟩

theorem pairMapped_fun {m : List (Nat × Nat)}
    (hnd : (m.map Prod.fst).Nodup) {q t1 t2 : Nat}
    (h1 : pairMapped m q t1 = true) (h2 : pairMapped m q t2 = true) :
    t1 = t2 := by
  have hm1 := pairMapped_iff.mp h1
  have hm2 := pairMapped_iff.mp h2
  have := List.inj_on_of_nodup_map hnd hm1 hm2 rfl
  exact congrArg Prod.snd this

theorem edgeMatched_perm (eOK : E → E2 → Bool) {m m2 : List (Nat × Nat)}
    (hp : m.Perm m2) (ea : Nat × Nat × E) (eb : Nat × Nat × E2) :
    edgeMatched eOK m ea eb = edgeMatched eOK m2 ea eb := by
  simp only [edgeMatched, pairMapped_perm hp]

theorem edgeMatched_swap {eOK : E → E2 → Bool} {eOK2 : E2 → E → Bool}
    (hse : ∀ x y, eOK x y = eOK2 y x) (m : List (Nat × Nat))
    (ea : Nat × Nat × E) (eb : Nat × Nat × E2) :
    edgeMatched eOK2 (swapM m) eb ea = edgeMatched eOK m ea eb := by
  simp only [edgeMatched, pairMapped_swapM, hse]
  rw [Bool.and_comm (pairMapped m ea.2.1 eb.1) (pairMapped m ea.1 eb.2.1)]

theorem sum_map_add (l : List α) (f g : α → Nat) :
    (l.map (fun x => f x + g x)).sum = (l.map f).sum + (l.map g).sum := by
  induction l with
  | nil => rfl
  | cons x xs ih => simp [ih]; omega

theorem sum_map_one (l : List α) : (l.map (fun _ => (1 : Nat))).sum = l.length := by
  induction l with
  | nil => rfl
  | cons x xs ih => simp [ih]; omega

theorem countP_eq_sum_ite (l : List α) (p : α → Bool) :
    l.countP p = (l.map (fun x => if p x then 1 else 0)).sum := by
  induction l with
  | nil => rfl
  | cons x xs ih =>
      rw [List.countP_cons, List.map_cons, List.sum_cons, ih]
      cases hp : p x <;> simp [hp] <;> omega

theorem sum_countP_comm (l1 : List α) (l2 : List β) (P : α → β → Bool) :
    (l1.map (fun x => l2.countP (P x))).sum
      = (l2.map (fun y => l1.countP (fun x => P x y))).sum := by
  induction l1 with
  | nil => simp [List.countP_nil]
  | cons x xs ih =>
      rw [List.map_cons, List.sum_cons, ih]
      have h2 : ∀ y ∈ l2, ((x :: xs).countP (fun x2 => P x2 y))
          = xs.countP (fun x2 => P x2 y) + (if P x y then 1 else 0) := by
        intro y _
        rw [List.countP_cons]
      rw [List.map_congr_left h2, sum_map_add]
      rw [← countP_eq_sum_ite l2 (P x)]
      omega

theorem sharedPairs_perm (eOK : E → E2 → Bool) (a : CGraph V E)
    (b : CGraph V2 E2) {m m2 : List (Nat × Nat)} (hp : m.Perm m2) :
    sharedPairs eOK a b m = sharedPairs eOK a b m2 := by
  unfold sharedPairs
  congr 1
  apply List.map_congr_left
  intro ea _
  apply List.countP_congr
  intro eb _
  simp only [edgeMatched_perm eOK hp]

theorem sharedPairs_swap {eOK : E → E2 → Bool} {eOK2 : E2 → E → Bool}
    (hse : ∀ x y, eOK x y = eOK2 y x) (a : CGraph V E) (b : CGraph V2 E2)
    (m : List (Nat × Nat)) :
    sharedPairs eOK2 b a (swapM m) = sharedPairs eOK a b m := by
  unfold sharedPairs
  have h1 : ∀ eb ∈ b.edges, a.edges.countP (edgeMatched eOK2 (swapM m) eb)
      = a.edges.countP (fun ea => edgeMatched eOK m ea eb) := by
    intro eb _
    apply List.countP_congr
    intro ea _
    simp only [edgeMatched_swap hse]
  rw [List.map_congr_left h1, ← sum_countP_comm]

end SharedPairsLemmas

section ValidityLemmas

variable {V E V2 E2 : Type}

theorem validG_edges_normEnds_nodup {g : CGraph V E} (h : g.validG = true) :
    (g.edges.map CGraph.normEnds).Nodup := by
  obtain ⟨_, h2⟩ := band_true_iff.mp h
  exact of_decide_eq_true h2

theorem validG_edges_nodup {g : CGraph V E} (h : g.validG = true) :
    g.edges.Nodup :=
  (validG_edges_normEnds_nodup h).of_map _

theorem validG_edge_mem {g : CGraph V E} (h : g.validG = true) :
    ∀ e ∈ g.edges, e.1 < g.vertexCount ∧ e.2.1 < g.vertexCount
      ∧ e.1 ≠ e.2.1 := by
  obtain ⟨h1, _⟩ := band_true_iff.mp h
  intro e he
  have := List.all_eq_true.mp h1 e he
  obtain ⟨h3, h4⟩ := band_true_iff.mp this
  obtain ⟨h5, h6⟩ := band_true_iff.mp h3
  exact ⟨of_decide_eq_true h5, of_decide_eq_true h6, of_decide_eq_true h4⟩

theorem normEnds_congr {e1 e2 : Nat × Nat × E2}
    (h1 : e1.1 = e2.1) (h2 : e1.2.1 = e2.2.1) :
    CGraph.normEnds e1 = CGraph.normEnds e2 := by
  simp [CGraph.normEnds, h1, h2]

theorem normEnds_congr_swap {e1 e2 : Nat × Nat × E2}
    (h1 : e1.1 = e2.2.1) (h2 : e1.2.1 = e2.1) :
    CGraph.normEnds e1 = CGraph.normEnds e2 := by
  rw [CGraph.normEnds, CGraph.normEnds, h1, h2]
  rcases Nat.le_total e2.2.1 e2.1 with hc | hc
  · by_cases hc2 : e2.1 ≤ e2.2.1
    · have heq : e2.1 = e2.2.1 := Nat.le_antisymm hc2 hc
      simp [heq]
    · simp [hc, hc2]
  · by_cases hc2 : e2.2.1 ≤ e2.1
    · have heq : e2.1 = e2.2.1 := Nat.le_antisymm hc hc2
      simp [heq]
    · simp [hc, hc2]

theorem edgeMatched_ends {eOK : E → E2 → Bool} {m : List (Nat × Nat)}
    {ea : Nat × Nat × E} {eb : Nat × Nat × E2}
    (h : edgeMatched eOK m ea eb = true) :
    (pairMapped m ea.1 eb.1 = true ∧ pairMapped m ea.2.1 eb.2.1 = true)
      ∨ (pairMapped m ea.1 eb.2.1 = true ∧ pairMapped m ea.2.1 eb.1 = true) := by
  obtain ⟨_, hd⟩ := band_true_iff.mp h
  rcases Bool.or_eq_true_iff.mp hd with hd1 | hd1
  · exact Or.inl (band_true_iff.mp hd1)
  · exact Or.inr (band_true_iff.mp hd1)

theorem edgeMatched_unique {eOK : E → E2 → Bool} {m : List (Nat × Nat)}
    (hndf : (m.map Prod.fst).Nodup) {b : CGraph V2 E2}
    (hvb : b.validG = true) (ea : Nat × Nat × E) :
    ∀ e1 ∈ b.edges, edgeMatched eOK m ea e1 = true →
    ∀ e2 ∈ b.edges, edgeMatched eOK m ea e2 = true → e1 = e2 := by
  intro e1 he1 hm1 e2 he2 hm2
  apply List.inj_on_of_nodup_map (validG_edges_normEnds_nodup hvb) he1 he2
  rcases edgeMatched_ends hm1 with ⟨ha1, ha2⟩ | ⟨ha1, ha2⟩
  · rcases edgeMatched_ends hm2 with ⟨hb1, hb2⟩ | ⟨hb1, hb2⟩
    · exact normEnds_congr (pairMapped_fun hndf ha1 hb1)
        (pairMapped_fun hndf ha2 hb2)
    · exact normEnds_congr_swap (pairMapped_fun hndf ha1 hb1)
        (pairMapped_fun hndf ha2 hb2)
  · rcases edgeMatched_ends hm2 with ⟨hb1, hb2⟩ | ⟨hb1, hb2⟩
    · exact normEnds_congr_swap (pairMapped_fun hndf ha2 hb2)
        (pairMapped_fun hndf ha1 hb1)
    · exact normEnds_congr (pairMapped_fun hndf ha2 hb2)
        (pairMapped_fun hndf ha1 hb1)

theorem countP_edgeMatched_le_one {eOK : E → E2 → Bool}
    {b : CGraph V2 E2} (hvb : b.validG = true) {m : List (Nat × Nat)}
    (hndf : (m.map Prod.fst).Nodup) (ea : Nat × Nat × E) :
    b.edges.countP (edgeMatched eOK m ea) ≤ 1 :=
  countP_le_one_of_nodup (validG_edges_nodup hvb)
    (fun e1 he1 hp1 e2 he2 hp2 =>
      edgeMatched_unique hndf hvb ea e1 he1 hp1 e2 he2 hp2)

/-- For a valid right graph and a query-injective mapping, the shared
edge count is at most the left edge count. -/
theorem sharedPairs_le_left (eOK : E → E2 → Bool) {a : CGraph V E}
    {b : CGraph V2 E2} {m : List (Nat × Nat)}
    (hvb : b.validG = true) (hndf : (m.map Prod.fst).Nodup) :
    sharedPairs eOK a b m ≤ a.edgeCount := by
  unfold sharedPairs
  calc (a.edges.map (fun ea => b.edges.countP (edgeMatched eOK m ea))).sum
      ≤ (a.edges.map (fun _ => 1)).sum :=
        List.sum_le_sum (fun ea _ => countP_edgeMatched_le_one hvb hndf ea)
    _ = a.edgeCount := sum_map_one _

/-- For a valid left graph and a target-injective mapping, the shared
edge count is at most the right edge count. -/
theorem sharedPairs_le_right (eOK : E → E2 → Bool) {a : CGraph V E}
    {b : CGraph V2 E2} {m : List (Nat × Nat)}
    (hva : a.validG = true) (hnds : (m.map Prod.snd).Nodup) :
    sharedPairs eOK a b m ≤ b.edgeCount := by
  have hswap : sharedPairs (fun y x => eOK x y) b a (swapM m)
      = sharedPairs eOK a b m :=
    sharedPairs_swap (fun x y => rfl) a b m
  rw [← hswap]
  refine sharedPairs_le_left _ hva ?_
  rw [swapM_map_fst]
  exact hnds

/-- A full substructure embedding realizes every pattern edge exactly
once as a shared edge. -/
theorem substruct_sharedPairs {vOK : V → V2 → Bool} {eOK : E → E2 → Bool}
    {p : CGraph V E} {t : CGraph V2 E2} {m : List (Nat × Nat)}
    (h : substructOK vOK eOK p t m = true) (hvt : t.validG = true) :
    sharedPairs eOK p t m = p.edgeCount := by
  obtain ⟨hce, hlen, hedges⟩ := (substructOK_iff vOK eOK p t m).mp h
  obtain ⟨hndf, _, _⟩ := (isCEMapping_iff vOK p t m).mp hce
  unfold sharedPairs
  have hone : ∀ ea ∈ p.edges, t.edges.countP (edgeMatched eOK m ea) = 1 := by
    intro ea hea
    have hle : t.edges.countP (edgeMatched eOK m ea) ≤ 1 :=
      countP_edgeMatched_le_one hvt hndf ea
    have hpos : 0 < t.edges.countP (edgeMatched eOK m ea) := by
      rcases List.any_eq_true.mp (hedges ea hea) with ⟨eb, heb, hmm⟩
      exact List.countP_pos.mpr ⟨eb, heb, hmm⟩
    omega
  rw [List.map_congr_left hone]
  exact sum_map_one _

end ValidityLemmas

section IdentityLemmas

variable {V E V2 E2 : Type}

/-- The identity pairing on the first `n` indices. -/
def idMapN (n : Nat) : List (Nat × Nat) := (List.range n).map (fun i => (i, i))

theorem idMapN_map_fst (n : Nat) : (idMapN n).map Prod.fst = List.range n := by
  simp [idMapN, List.map_map, Function.comp_def]

theorem idMapN_map_snd (n : Nat) : (idMapN n).map Prod.snd = List.range n := by
  simp [idMapN, List.map_map, Function.comp_def]

theorem idMapN_length (n : Nat) : (idMapN n).length = n := by simp [idMapN]

theorem idMapN_mem_candidates (g : CGraph V E) :
    idMapN g.vertexCount ∈ candidatesFor g g :=
  pmaps_mem_id _ _ (List.nodup_range _) (fun _ hq => hq)

theorem beq_comm {γ : Type} [BEq γ] [LawfulBEq γ] (x y : γ) :
    (x == y) = (y == x) := by
  by_cases h : x = y
  · subst h; rfl
  · rw [beq_eq_false_iff_ne.mpr h, beq_eq_false_iff_ne.mpr (Ne.symm h)]

theorem optCompat_refl {F : Type} [BEq F] [LawfulBEq F] (o : Option F) :
    optCompat (fun x y => x == y) o o = true := by
  cases o with
  | none => rfl
  | some e => exact beq_self_eq_true e

theorem vPairOK_refl {F G : Type} [BEq F] [LawfulBEq F] (g : CGraph F G)
    {i : Nat} (hi : i < g.vertexCount) :
    vPairOK (fun x y => x == y) g g (i, i) = true := by
  have h1 := List.getElem?_eq_getElem (show i < g.vattrs.length from hi)
  rw [vPairOK, h1]
  exact beq_self_eq_true _

theorem isCIMapping_id {F G : Type} [BEq F] [LawfulBEq F] [BEq G] [LawfulBEq G]
    (g : CGraph F G) :
    isCIMapping (fun x y => x == y) (fun x y => x == y) g g
      (idMapN g.vertexCount) = true := by
  refine (isCIMapping_iff _ _ g g _).mpr ⟨?_, ?_, ?_, ?_⟩
  · rw [idMapN_map_fst]; exact List.nodup_range _
  · rw [idMapN_map_snd]; exact List.nodup_range _
  · intro p hp
    rcases List.mem_map.mp hp with ⟨i, hi, rfl⟩
    exact vPairOK_refl g (List.mem_range.mp hi)
  · intro p hp q hq
    rcases List.mem_map.mp hp with ⟨i, _, rfl⟩
    rcases List.mem_map.mp hq with ⟨j, _, rfl⟩
    exact optCompat_refl _

/-- Transfer of an injective in-range mapping into the candidate list,
up to reordering. -/
theorem exists_perm_mem_candidates {b : CGraph V2 E2} {a : CGraph V E}
    {m : List (Nat × Nat)}
    (h1 : (m.map Prod.fst).Nodup) (h2 : (m.map Prod.snd).Nodup)
    (h3 : ∀ p ∈ m, p.1 < b.vertexCount) (h4 : ∀ p ∈ m, p.2 < a.vertexCount) :
    ∃ m2 ∈ candidatesFor b a, m2.Perm m :=
  exists_perm_mem_pmaps _ _ m (List.nodup_range _) h1
    (fun p hp => List.mem_range.mpr (h3 p hp)) h2
    (fun p hp => List.mem_range.mpr (h4 p hp))

end IdentityLemmas

section SolverLemmas

/-- MCIS size is bounded by both vertex counts, for every budget. -/
theorem mcisSolve_size_le (a b : Molecule) (n : Nat) :
    (mcisSolve a b n).size ≤ a.vertexCount
      ∧ (mcisSolve a b n).size ≤ b.vertexCount := by
  rw [mcisSolve, tdSolve_size_eq]
  constructor
  · refine bestVal_le _ _ ?_
    intro m _ hv
    exact (isCIMapping_length_le hv).1
  · refine bestVal_le _ _ ?_
    intro m _ hv
    exact (isCIMapping_length_le hv).2

/-- MCES size is bounded by both edge counts, for every budget, when
both graphs are valid. -/
theorem mcesSolve_size_le (a b : Molecule) (n : Nat)
    (hva : a.validG = true) (hvb : b.validG = true) :
    (mcesSolve a b n).size ≤ a.edgeCount
      ∧ (mcesSolve a b n).size ≤ b.edgeCount := by
  rw [mcesSolve, tdSolve_size_eq]
  constructor
  · refine bestVal_le _ _ ?_
    intro m _ hv
    obtain ⟨k1, _, _⟩ := (isCEMapping_iff _ a b m).mp hv
    exact sharedPairs_le_left _ hvb k1
  · refine bestVal_le _ _ ?_
    intro m _ hv
    obtain ⟨_, k2, _⟩ := (isCEMapping_iff _ a b m).mp hv
    exact sharedPairs_le_right _ hva k2

/-- With ample budget, the MCIS of a graph against itself is its
vertex count and the search is exhaustive. -/
theorem mcisSolve_self (g : Molecule) (n : Nat)
    (h : (candidatesFor g g).length ≤ n) :
    (mcisSolve g g n).size = g.vertexCount
      ∧ (mcisSolve g g n).exhaustive = true := by
  constructor
  · rw [mcisSolve, tdSolve_size_eq, List.take_of_length_le h]
    apply le_antisymm
    · refine bestVal_le _ _ ?_
      intro m _ hv
      exact (isCIMapping_length_le hv).1
    · have hlow := score_le_bestVal List.length
        (isCIMapping (fun x y => x == y) (fun x y => x == y) g g)
        (idMapN_mem_candidates g) (isCIMapping_id g)
      rw [idMapN_length] at hlow
      exact hlow
  · rw [mcisSolve, tdSolve_exhaustive_eq]
    exact decide_eq_true h

/-- Exact match of a molecule against itself. -/
theorem has_exact_match_self (g : Molecule) : has_exact_match g g = true := by
  have h1 : (candidatesFor g g).any (fun m =>
      isCIMapping (fun x y => x == y) (fun x y => x == y) g g m
        && decide (m.length = g.vertexCount)) = true :=
    List.any_eq_true.mpr ⟨idMapN g.vertexCount, idMapN_mem_candidates g,
      band_true_iff.mpr ⟨isCIMapping_id g, by simp [idMapN_length]⟩⟩
  simp [has_exact_match, h1]

theorem has_exact_match_true_symm {a b : Molecule}
    (h : has_exact_match a b = true) : has_exact_match b a = true := by
  rw [has_exact_match] at h
  obtain ⟨h12, h3⟩ := band_true_iff.mp h
  obtain ⟨h1, h2⟩ := band_true_iff.mp h12
  have hvc : a.vertexCount = b.vertexCount := of_decide_eq_true h1
  have hec : a.edgeCount = b.edgeCount := of_decide_eq_true h2
  obtain ⟨m, hmc, hmm⟩ := List.any_eq_true.mp h3
  obtain ⟨hci, hlen⟩ := band_true_iff.mp hmm
  have hlen2 : m.length = a.vertexCount := of_decide_eq_true hlen
  have hci2 : isCIMapping (fun x y => x == y) (fun x y => x == y) b a
      (swapM m) = true :=
    isCIMapping_swap (fun x y => beq_comm x y) (fun x y => beq_comm x y) hci
  obtain ⟨k1, k2, k3, _⟩ := (isCIMapping_iff _ _ b a (swapM m)).mp hci2
  obtain ⟨m2, hm2c, hm2p⟩ := exists_perm_mem_candidates k1 k2
    (fun p hp => (vPairOK_lt (k3 p hp)).1)
    (fun p hp => (vPairOK_lt (k3 p hp)).2)
  rw [has_exact_match]
  refine band_true_iff.mpr ⟨band_true_iff.mpr ⟨?_, ?_⟩, ?_⟩
  · exact decide_eq_true hvc.symm
  · exact decide_eq_true hec.symm
  · refine List.any_eq_true.mpr ⟨m2, hm2c, band_true_iff.mpr ⟨?_, ?_⟩⟩
    · exact isCIMapping_perm _ _ b a hm2p.symm hci2
    · refine decide_eq_true ?_
      rw [hm2p.length_eq,
        show (swapM m).length = m.length from by simp [swapM], hlen2, hvc]

theorem mcis_bestVal_le (a b : Molecule) :
    bestVal List.length
      (isCIMapping (fun x y => x == y) (fun x y => x == y) a b)
      (candidatesFor a b)
    ≤ bestVal List.length
      (isCIMapping (fun x y => x == y) (fun x y => x == y) b a)
      (candidatesFor b a) := by
  refine bestVal_le _ _ ?_
  intro m _ hv
  have hci2 : isCIMapping (fun x y => x == y) (fun x y => x == y) b a
      (swapM m) = true :=
    isCIMapping_swap (fun x y => beq_comm x y) (fun x y => beq_comm x y) hv
  obtain ⟨k1, k2, k3, _⟩ := (isCIMapping_iff _ _ b a (swapM m)).mp hci2
  obtain ⟨m2, hm2c, hm2p⟩ := exists_perm_mem_candidates k1 k2
    (fun p hp => (vPairOK_lt (k3 p hp)).1)
    (fun p hp => (vPairOK_lt (k3 p hp)).2)
  have hvm2 := isCIMapping_perm _ _ b a hm2p.symm hci2
  have hb := score_le_bestVal List.length
    (isCIMapping (fun x y => x == y) (fun x y => x == y) b a) hm2c hvm2
  rw [show m2.length = m.length from by
    rw [hm2p.length_eq]; simp [swapM]] at hb
  exact hb

theorem mces_bestVal_le (a b : Molecule) :
    bestVal (sharedPairs (fun x y => x == y) a b)
      (isCEMapping (fun x y => x == y) a b) (candidatesFor a b)
    ≤ bestVal (sharedPairs (fun x y => x == y) b a)
      (isCEMapping (fun x y => x == y) b a) (candidatesFor b a) := by
  refine bestVal_le _ _ ?_
  intro m _ hv
  have hce2 : isCEMapping (fun x y => x == y) b a (swapM m) = true :=
    isCEMapping_swap (fun x y => beq_comm x y) hv
  obtain ⟨k1, k2, k3⟩ := (isCEMapping_iff _ b a (swapM m)).mp hce2
  obtain ⟨m2, hm2c, hm2p⟩ := exists_perm_mem_candidates k1 k2
    (fun p hp => (vPairOK_lt (k3 p hp)).1)
    (fun p hp => (vPairOK_lt (k3 p hp)).2)
  have hvm2 := isCEMapping_perm _ b a hm2p.symm hce2
  have hb := score_le_bestVal (sharedPairs (fun x y => x == y) b a)
    (isCEMapping (fun x y => x == y) b a) hm2c hvm2
  have heq : sharedPairs (fun x y => x == y) b a m2
      = sharedPairs (fun x y => x == y) a b m :=
    (sharedPairs_perm _ b a hm2p).trans
      (sharedPairs_swap (fun x y => beq_comm x y) a b m)
  rw [heq] at hb
  exact hb

/-- With full budgets on both sides, the MCIS size is symmetric. -/
theorem mcisSolve_size_symm (a b : Molecule) {n1 n2 : Nat}
    (h1 : (candidatesFor a b).length ≤ n1)
    (h2 : (candidatesFor b a).length ≤ n2) :
    (mcisSolve a b n1).size = (mcisSolve b a n2).size := by
  rw [mcisSolve, mcisSolve, tdSolve_size_eq, tdSolve_size_eq,
    List.take_of_length_le h1, List.take_of_length_le h2]
  exact le_antisymm (mcis_bestVal_le a b) (mcis_bestVal_le b a)

/-- With full budgets on both sides, the MCES size is symmetric. -/
theorem mcesSolve_size_symm (a b : Molecule) {n1 n2 : Nat}
    (h1 : (candidatesFor a b).length ≤ n1)
    (h2 : (candidatesFor b a).length ≤ n2) :
    (mcesSolve a b n1).size = (mcesSolve b a n2).size := by
  rw [mcesSolve, mcesSolve, tdSolve_size_eq, tdSolve_size_eq,
    List.take_of_length_le h1, List.take_of_length_le h2]
  exact le_antisymm (mces_bestVal_le a b) (mces_bestVal_le b a)

end SolverLemmas

section MetricLemmas

/-- With sufficient budget, a substructure match forces the
pattern-target MCES size to be the pattern's edge count. -/
theorem mcesSolveQ_substruct (p : QPattern) (t : Molecule) (n : Nat)
    (hm : has_substruct_match p t = true) (hvt : t.validG = true)
    (hb : (candidatesFor p t).length ≤ n) :
    (mcesSolveQ p t n).size = p.edgeCount := by
  rw [mcesSolveQ, tdSolve_size_eq, List.take_of_length_le hb]
  obtain ⟨m, hmc, hmm⟩ := List.any_eq_true.mp hm
  apply le_antisymm
  · refine bestVal_le _ _ ?_
    intro m2 _ hv
    obtain ⟨k1, _, _⟩ := (isCEMapping_iff _ p t m2).mp hv
    exact sharedPairs_le_left _ hvt k1
  · obtain ⟨hce, _, _⟩ := (substructOK_iff _ _ p t m).mp hmm
    have hlow := score_le_bestVal (sharedPairs EConstr.matchesE p t)
      (isCEMapping VConstr.matchesV p t) hmc hce
    rw [substruct_sharedPairs hmm hvt] at hlow
    exact hlow

theorem tanimotoQ_denom_pos {c na nb : Nat} (hc1 : c ≤ na) (hc2 : c ≤ nb)
    (h : ¬(na = 0 ∧ nb = 0)) : (0 : ℚ) < (na : ℚ) + (nb : ℚ) - (c : ℚ) := by
  have h1 : (c : ℚ) ≤ (na : ℚ) := by exact_mod_cast hc1
  have h2 : (c : ℚ) ≤ (nb : ℚ) := by exact_mod_cast hc2
  have h3 : 0 < na ∨ 0 < nb := by omega
  rcases h3 with h3 | h3
  · have h4 : (1 : ℚ) ≤ (na : ℚ) := by exact_mod_cast h3
    linarith
  · have h4 : (1 : ℚ) ≤ (nb : ℚ) := by exact_mod_cast h3
    linarith

theorem tanimotoQ_both_zero {c : Nat} (hc : c ≤ 0) : tanimotoQ c 0 0 = 1 := by
  have : c = 0 := Nat.le_zero.mp hc
  subst this
  simp [tanimotoQ]

theorem tanimotoQ_formula {c na nb : Nat} (hc1 : c ≤ na) (hc2 : c ≤ nb)
    (h : ¬(na = 0 ∧ nb = 0)) :
    tanimotoQ c na nb = (c : ℚ) / ((na : ℚ) + (nb : ℚ) - (c : ℚ))
      ∧ (na : ℚ) + (nb : ℚ) - (c : ℚ) ≠ 0 := by
  have hpos := tanimotoQ_denom_pos hc1 hc2 h
  exact ⟨by rw [tanimotoQ, if_neg (ne_of_gt hpos)], ne_of_gt hpos⟩

theorem tanimotoQ_nonneg {c na nb : Nat} (hc1 : c ≤ na) (hc2 : c ≤ nb) :
    (0 : ℚ) ≤ tanimotoQ c na nb := by
  by_cases h : (na : ℚ) + (nb : ℚ) - (c : ℚ) = 0
  · rw [tanimotoQ, if_pos h]
    split_ifs <;> norm_num
  · rw [tanimotoQ, if_neg h]
    have h1 : (c : ℚ) ≤ (na : ℚ) := by exact_mod_cast hc1
    have h2 : (0 : ℚ) ≤ (nb : ℚ) := by positivity
    have h3 : (0 : ℚ) ≤ (c : ℚ) := by positivity
    have h4 : (0 : ℚ) ≤ (na : ℚ) + (nb : ℚ) - (c : ℚ) := by linarith
    exact div_nonneg h3 h4

theorem tanimotoQ_le_one {c na nb : Nat} (hc1 : c ≤ na) (hc2 : c ≤ nb) :
    tanimotoQ c na nb ≤ 1 := by
  by_cases h : (na : ℚ) + (nb : ℚ) - (c : ℚ) = 0
  · rw [tanimotoQ, if_pos h]
    split_ifs <;> norm_num
  · rw [tanimotoQ, if_neg h]
    have h1 : (c : ℚ) ≤ (na : ℚ) := by exact_mod_cast hc1
    have h2 : (c : ℚ) ≤ (nb : ℚ) := by exact_mod_cast hc2
    have h3 : (0 : ℚ) ≤ (c : ℚ) := by positivity
    have h4 : (0 : ℚ) ≤ (na : ℚ) + (nb : ℚ) - (c : ℚ) := by linarith
    have h5 : (0 : ℚ) < (na : ℚ) + (nb : ℚ) - (c : ℚ) :=
      lt_of_le_of_ne h4 (Ne.symm h)
    rw [div_le_one h5]
    linarith

theorem tanimotoQ_mono {c1 c2 na nb : Nat} (h12 : c1 ≤ c2)
    (hc1 : c2 ≤ na) (hc2 : c2 ≤ nb) :
    tanimotoQ c1 na nb ≤ tanimotoQ c2 na nb := by
  by_cases hz : na = 0 ∧ nb = 0
  · obtain ⟨rfl, rfl⟩ := hz
    rw [tanimotoQ_both_zero (by omega), tanimotoQ_both_zero hc1]
  · have hf2 := tanimotoQ_formula hc1 hc2 hz
    have hf1 := tanimotoQ_formula (le_trans h12 hc1) (le_trans h12 hc2) hz
    rw [hf1.1, hf2.1]
    have hp2 := tanimotoQ_denom_pos hc1 hc2 hz
    have hp1 := tanimotoQ_denom_pos (le_trans h12 hc1) (le_trans h12 hc2) hz
    rw [div_le_div_iff hp1 hp2]
    have q12 : (c1 : ℚ) ≤ (c2 : ℚ) := by exact_mod_cast h12
    have qna : (0 : ℚ) ≤ (na : ℚ) := by positivity
    have qnb : (0 : ℚ) ≤ (nb : ℚ) := by positivity
    nlinarith

theorem glsQ_mono {c1 c2 na nb : Nat} (h12 : c1 ≤ c2)
    (hc1 : c2 ≤ na) (hc2 : c2 ≤ nb) : glsQ c1 na nb ≤ glsQ c2 na nb := by
  rw [glsQ, glsQ]
  apply mul_le_mul_of_nonneg_right (tanimotoQ_mono h12 hc1 hc2)
  split_ifs
  · norm_num
  · positivity

end MetricLemmas

/-- A carbon-like vertex attribute used in concrete instances. -/
def vCarbon : VAttr := ⟨6, 0, false, 0, 0, false⟩

/-- An oxygen-like vertex attribute used in concrete instances. -/
def vOxygen : VAttr := ⟨8, 0, false, 0, 0, false⟩

/-- A single-bond edge attribute used in concrete instances. -/
def eSingle : EAttr := ⟨.single, false, false⟩

/-- A one-vertex molecule. -/
def molC : Molecule := ⟨[vCarbon], []⟩

/-- A one-vertex molecule with a different element. -/
def molO : Molecule := ⟨[vOxygen], []⟩

/-- A two-vertex, one-bond molecule. -/
def molCC : Molecule := ⟨[vCarbon, vCarbon], [(0, 1, eSingle)]⟩

/-- A three-vertex path molecule. -/
def molCCC : Molecule :=
  ⟨[vCarbon, vCarbon, vCarbon], [(0, 1, eSingle), (1, 2, eSingle)]⟩

/-- A malformed molecule: its only edge is a self-loop. -/
def molBad : Molecule := ⟨[vCarbon], [(0, 0, eSingle)]⟩

/-- A two-vertex, one-bond exact pattern. -/
def patCC : QPattern :=
  ⟨[.exactV vCarbon, .exactV vCarbon], [(0, 1, .exactE eSingle)]⟩

/-- C10: the batch operation exists only for the edge-kind GLS — the
header has exactly one batch entry point, `tdmces_gls_batch`, and no
`tdmcis_gls_batch`; unlike every other comparison operation (three
`char*` arguments, numeric return) it takes a single serialized string
and returns a string. -/
theorem c10_batch_entry_shape :
    (libmoleculargraphHeader.filter (fun d => d.name = "tdmces_gls_batch"))
        = [⟨"tdmces_gls_batch", CType.ptr, [CType.ptr]⟩]
    ∧ (∀ d ∈ libmoleculargraphHeader, d.name ≠ "tdmcis_gls_batch")
    ∧ (∀ d ∈ libmoleculargraphHeader,
        (d.name = "has_exact_match" ∨ d.name = "has_substruct_match"
          ∨ d.name = "tdmcis_size" ∨ d.name = "tdmces_size"
          ∨ d.name = "tdmcis_tanimoto" ∨ d.name = "tdmces_tanimoto"
          ∨ d.name = "tdmcis_dist" ∨ d.name = "tdmces_dist"
          ∨ d.name = "tdmcis_gls" ∨ d.name = "tdmces_gls") →
          d.args = [CType.ptr, CType.ptr, CType.ptr] ∧ d.ret ≠ CType.ptr)
    ∧ (∀ d ∈ libmoleculargraphHeader, d.name = "tdmces_gls_batch" →
          d.args = [CType.ptr] ∧ d.ret = CType.ptr) := by
  refine ⟨by decide, by decide, by decide, by decide⟩

/-- C1 counterexample: the C entry point `tdmcis_size` returns a single
int; no function of that returned value recovers the solver's
exhaustiveness flag, because two budgets on the same concrete input
yield the same int with different flags. -/
theorem c1_counterexample :
    ¬ ∃ f : Int → Bool, ∀ (a b : Molecule) (n : Nat),
        f (tdmcis_size a b n) = (mcisSolve a b n).exhaustive := by
  rintro ⟨f, hf⟩
  have h1 := hf molC molO 1
  have h2 := hf molC molO 3
  rw [show tdmcis_size molC molO 1 = 0 from by decide,
    show (mcisSolve molC molO 1).exhaustive = false from by decide] at h1
  rw [show tdmcis_size molC molO 3 = 0 from by decide,
    show (mcisSolve molC molO 3).exhaustive = true from by decide] at h2
  rw [h1] at h2
  cases h2

/-- C1 (amended): the internal solver result carries the best-effort
size together with the exhaustiveness flag (spec §4.4), but the C entry
points `tdmcis_size` and `tdmces_size` expose only the size, as a plain
int over three `char*` arguments; no exhaustiveness flag is returned at
the boundary. -/
theorem c1_amended :
    (∀ (a b : Molecule) (n : Nat),
        tdmcis_size a b n = ((mcisSolve a b n).size : Int)
          ∧ tdmces_size a b n = ((mcesSolve a b n).size : Int))
    ∧ (∀ d ∈ libmoleculargraphHeader,
        (d.name = "tdmcis_size" ∨ d.name = "tdmces_size") →
          d.ret = CType.cint ∧ d.args = [CType.ptr, CType.ptr, CType.ptr]) := by
  constructor
  · intro a b n
    exact ⟨rfl, rfl⟩
  · decide

/-- C1 witness: the amended statement at a concrete input. -/
theorem c1_amended_witness :
    tdmcis_size molC molO 1 = ((mcisSolve molC molO 1).size : Int)
      ∧ (⟨"tdmcis_size", CType.cint, [CType.ptr, CType.ptr, CType.ptr]⟩
          : CDecl).ret = CType.cint := by
  refine ⟨(c1_amended.1 molC molO 1).1, ?_⟩
  exact (c1_amended.2
    ⟨"tdmcis_size", CType.cint, [CType.ptr, CType.ptr, CType.ptr]⟩
    (by decide) (Or.inl rfl)).1

/-- C2: for valid graphs and any budget, the vertex-kind Tanimoto
similarity is 1 when both vertex counts are zero and otherwise equals
`mcis_size / (|V(a)| + |V(b)| - mcis_size)` with a nonzero denominator;
likewise the edge-kind similarity over edge counts.  (The spec's
"0 when the denominator would otherwise be 0" case is unreachable:
the denominator only vanishes when both counts are zero.) -/
theorem c2_tanimoto_quotient (a b : Molecule) (n : Nat)
    (hva : a.validG = true) (hvb : b.validG = true) :
    (a.vertexCount = 0 ∧ b.vertexCount = 0 → tdmcis_tanimoto a b n = 1)
    ∧ (¬(a.vertexCount = 0 ∧ b.vertexCount = 0) →
        tdmcis_tanimoto a b n
            = ((mcisSolve a b n).size : ℚ)
              / ((a.vertexCount : ℚ) + (b.vertexCount : ℚ)
                  - ((mcisSolve a b n).size : ℚ))
          ∧ (a.vertexCount : ℚ) + (b.vertexCount : ℚ)
              - ((mcisSolve a b n).size : ℚ) ≠ 0)
    ∧ (a.edgeCount = 0 ∧ b.edgeCount = 0 → tdmces_tanimoto a b n = 1)
    ∧ (¬(a.edgeCount = 0 ∧ b.edgeCount = 0) →
        tdmces_tanimoto a b n
            = ((mcesSolve a b n).size : ℚ)
              / ((a.edgeCount : ℚ) + (b.edgeCount : ℚ)
                  - ((mcesSolve a b n).size : ℚ))
          ∧ (a.edgeCount : ℚ) + (b.edgeCount : ℚ)
              - ((mcesSolve a b n).size : ℚ) ≠ 0) := by
  obtain ⟨hca, hcb⟩ := mcisSolve_size_le a b n
  obtain ⟨hea, heb⟩ := mcesSolve_size_le a b n hva hvb
  refine ⟨?_, ?_, ?_, ?_⟩
  · intro ⟨h1, h2⟩
    rw [tdmcis_tanimoto, h1, h2]
    exact tanimotoQ_both_zero (h1 ▸ hca)
  · intro h
    rw [tdmcis_tanimoto]
    exact tanimotoQ_formula hca hcb h
  · intro ⟨h1, h2⟩
    rw [tdmces_tanimoto, h1, h2]
    exact tanimotoQ_both_zero (h1 ▸ hea)
  · intro h
    rw [tdmces_tanimoto]
    exact tanimotoQ_formula hea heb h

/-- C2 witness: the quotient form evaluated on two small valid
molecules. -/
theorem c2_witness :
    molCC.validG = true ∧ molCCC.validG = true
      ∧ tdmcis_tanimoto molCC molCCC 100 = 2 / 3 := by
  refine ⟨by decide, by decide, ?_⟩
  have h := (c2_tanimoto_quotient molCC molCCC 100 (by decide)
    (by decide)).2.1 (by decide)
  rw [h.1, show (mcisSolve molCC molCCC 100).size = 2 from by decide]
  norm_num [CGraph.vertexCount, molCC, molCCC]

/-- C3: for a valid graph and ample budget, exact self-match holds, the
induced self common-subgraph size is the vertex count, and the search
reports exhaustive. -/
theorem c3_reflexivity (g : Molecule) (n : Nat) (hv : g.validG = true)
    (hn : (candidatesFor g g).length ≤ n) :
    has_exact_match g g = true
      ∧ tdmcis_size g g n = (g.vertexCount : Int)
      ∧ (mcisSolve g g n).exhaustive = true := by
  refine ⟨has_exact_match_self g, ?_, (mcisSolve_self g n hn).2⟩
  rw [tdmcis_size, (mcisSolve_self g n hn).1]

/-- C3 witness: reflexivity on a concrete two-vertex molecule. -/
theorem c3_witness :
    molCC.validG = true ∧ (candidatesFor molCC molCC).length ≤ 7
      ∧ has_exact_match molCC molCC = true
      ∧ tdmcis_size molCC molCC 7 = 2
      ∧ (mcisSolve molCC molCC 7).exhaustive = true := by
  have h := c3_reflexivity molCC 7 (by decide) (by decide)
  exact ⟨by decide, by decide, h.1, by rw [h.2.1]; rfl, h.2.2⟩

/-- C4: exact match is symmetric, and with budgets covering the whole
search on each side the induced and edge common-subgraph sizes are
symmetric as well. -/
theorem c4_symmetry (a b : Molecule) {n1 n2 : Nat}
    (h1 : (candidatesFor a b).length ≤ n1)
    (h2 : (candidatesFor b a).length ≤ n2) :
    has_exact_match a b = has_exact_match b a
      ∧ tdmcis_size a b n1 = tdmcis_size b a n2
      ∧ tdmces_size a b n1 = tdmces_size b a n2 := by
  refine ⟨bool_eq_of_iff
    ⟨fun h => has_exact_match_true_symm h,
     fun h => has_exact_match_true_symm h⟩, ?_, ?_⟩
  · rw [tdmcis_size, tdmcis_size, mcisSolve_size_symm a b h1 h2]
  · rw [tdmces_size, tdmces_size, mcesSolve_size_symm a b h1 h2]

/-- C4 witness: symmetry on a concrete pair of molecules of different
sizes. -/
theorem c4_witness :
    (candidatesFor molCC molC).length ≤ 10
      ∧ (candidatesFor molC molCC).length ≤ 10
      ∧ has_exact_match molCC molC = has_exact_match molC molCC
      ∧ tdmcis_size molCC molC 10 = tdmcis_size molC molCC 10
      ∧ tdmces_size molCC molC 10 = tdmces_size molC molCC 10 := by
  have h := @c4_symmetry molCC molC 10 10 (by decide) (by decide)
  exact ⟨by decide, by decide, h.1, h.2.1, h.2.2⟩

theorem glsQ_nonneg {c na nb : Nat} (hc1 : c ≤ na) (hc2 : c ≤ nb) :
    (0 : ℚ) ≤ glsQ c na nb := by
  rw [glsQ]
  refine mul_nonneg (tanimotoQ_nonneg hc1 hc2) ?_
  split_ifs
  · norm_num
  · positivity

theorem glsQ_le_one {c na nb : Nat} (hc1 : c ≤ na) (hc2 : c ≤ nb) :
    glsQ c na nb ≤ 1 := by
  rw [glsQ]
  have ht1 := tanimotoQ_le_one hc1 hc2
  have ht0 := tanimotoQ_nonneg hc1 hc2
  have hp0 : (0 : ℚ) ≤ (if max na nb = 0 then 1
      else ((min na nb : ℚ) / (max na nb : ℚ))) := by
    split_ifs
    · norm_num
    · positivity
  have hp1 : (if max na nb = 0 then (1 : ℚ)
      else ((min na nb : ℚ) / (max na nb : ℚ))) ≤ 1 := by
    split_ifs with h
    · norm_num
    · have hmx : 0 < max na nb := Nat.pos_of_ne_zero h
      have hmxq : (0 : ℚ) < (max na nb : ℚ) := by exact_mod_cast hmx
      rw [div_le_one hmxq]
      exact_mod_cast min_le_max
  calc tanimotoQ c na nb * _ ≤ 1 * 1 :=
        mul_le_mul ht1 hp1 hp0 (by norm_num)
    _ = 1 := by norm_num

/-- C5: for valid graphs and every budget, the induced size is at most
the smaller vertex count, all similarity scores (both Tanimoto variants
and both GLS variants) lie in [0, 1], and both distances are
non-negative integers. -/
theorem c5_output_bounds (a b : Molecule) (n : Nat)
    (hva : a.validG = true) (hvb : b.validG = true) :
    tdmcis_size a b n ≤ ((min a.vertexCount b.vertexCount : Nat) : Int)
      ∧ 0 ≤ tdmcis_tanimoto a b n ∧ tdmcis_tanimoto a b n ≤ 1
      ∧ 0 ≤ tdmces_tanimoto a b n ∧ tdmces_tanimoto a b n ≤ 1
      ∧ 0 ≤ tdmcis_gls a b n ∧ tdmcis_gls a b n ≤ 1
      ∧ 0 ≤ tdmces_gls a b n ∧ tdmces_gls a b n ≤ 1
      ∧ 0 ≤ tdmcis_dist a b n ∧ 0 ≤ tdmces_dist a b n := by
  obtain ⟨hca, hcb⟩ := mcisSolve_size_le a b n
  obtain ⟨hea, heb⟩ := mcesSolve_size_le a b n hva hvb
  refine ⟨?_, tanimotoQ_nonneg hca hcb, tanimotoQ_le_one hca hcb,
    tanimotoQ_nonneg hea heb, tanimotoQ_le_one hea heb,
    glsQ_nonneg hca hcb, glsQ_le_one hca hcb,
    glsQ_nonneg hea heb, glsQ_le_one hea heb, ?_, ?_⟩
  · rw [tdmcis_size]
    exact_mod_cast Nat.le_min.mpr ⟨hca, hcb⟩
  · rw [tdmcis_dist]
    have h := le_trans hca (le_max_left a.vertexCount b.vertexCount)
    omega
  · rw [tdmces_dist]
    have h := le_trans hea (le_max_left a.edgeCount b.edgeCount)
    omega

/-- C5 witness: the bounds at a concrete valid pair. -/
theorem c5_witness :
    molCC.validG = true ∧ molCCC.validG = true
      ∧ tdmcis_size molCC molCCC 5
          ≤ ((min molCC.vertexCount molCCC.vertexCount : Nat) : Int)
      ∧ 0 ≤ tdmcis_tanimoto molCC molCCC 5
      ∧ tdmcis_tanimoto molCC molCCC 5 ≤ 1
      ∧ 0 ≤ tdmcis_dist molCC molCCC 5 := by
  have h := c5_output_bounds molCC molCCC 5 (by decide) (by decide)
  exact ⟨by decide, by decide, h.1, h.2.1, h.2.2.1,
    h.2.2.2.2.2.2.2.2.2.1⟩

/-- C6: a substructure match of pattern `p` into target `t` forces the
edge-kind common-subgraph size of `(p, t)` to equal `p`'s edge count,
given sufficient budget and a valid target. -/
theorem c6_substructure (p : QPattern) (t : Molecule) (n : Nat)
    (hm : has_substruct_match p t = true) (hvt : t.validG = true)
    (hb : (candidatesFor p t).length ≤ n) :
    tdmces_size_q p t n = (p.edgeCount : Int) := by
  rw [tdmces_size_q, mcesSolveQ_substruct p t n hm hvt hb]

/-- C6 witness: a one-bond pattern matched into a one-bond molecule. -/
theorem c6_witness :
    has_substruct_match patCC molCC = true ∧ molCC.validG = true
      ∧ (candidatesFor patCC molCC).length ≤ 7
      ∧ tdmces_size_q patCC molCC 7 = 1 := by
  have h := c6_substructure patCC molCC 7 (by decide) (by decide) (by decide)
  exact ⟨by decide, by decide, by decide, by rw [h]; rfl⟩

/-- C7: the batch GLS result has exactly one entry per target, in input
order; each position holds the single-pair GLS of the query against
that target when the target is valid, and an error marker at that
position alone when it is malformed. -/
theorem c7_batch_alignment (q : Molecule) (ts : List Molecule) (n : Nat) :
    (tdmces_gls_batch q ts n).length = ts.length
      ∧ ∀ i : Nat, (tdmces_gls_batch q ts n)[i]?
          = (ts[i]?).map (fun t => if t.validG = true
              then GlsEntry.score (tdmces_gls q t n) else GlsEntry.errmark) := by
  induction ts with
  | nil => exact ⟨rfl, fun i => by rw [tdmces_gls_batch]; simp⟩
  | cons t ts ih =>
      refine ⟨?_, ?_⟩
      · rw [tdmces_gls_batch, List.length_cons, List.length_cons, ih.1]
      · intro i
        cases i with
        | zero => rw [tdmces_gls_batch]; simp
        | succ j =>
            rw [tdmces_gls_batch]
            simp only [List.getElem?_cons_succ]
            exact ih.2 j

/-- C8: the solver is a pure function (two runs on the same inputs give
the same size and witness mapping), and its returned mapping is exactly
the first candidate, in the fixed enumeration order, attaining the
optimal score among explored candidates — ties keep the mapping
discovered first. -/
theorem c8_determinism_first_found (a b : Molecule) (n : Nat) :
    mcisSolve a b n = mcisSolve a b n
      ∧ mcesSolve a b n = mcesSolve a b n
      ∧ (mcisSolve a b n).mapping
          = (firstMaxBy List.length
              (isCIMapping (fun x y => x == y) (fun x y => x == y) a b)
              ((candidatesFor a b).take n)).getD []
      ∧ (mcesSolve a b n).mapping
          = (firstMaxBy (sharedPairs (fun x y => x == y) a b)
              (isCEMapping (fun x y => x == y) a b)
              ((candidatesFor a b).take n)).getD [] := by
  refine ⟨rfl, rfl, ?_, ?_⟩
  · rw [mcisSolve, tdSolve_mapping_eq, searchBest_eq_firstMaxBy]
  · rw [mcesSolve, tdSolve_mapping_eq, searchBest_eq_firstMaxBy]

/-- C9: the graph-likeness score is monotonically non-decreasing in the
common-subgraph size for fixed element counts, and both GLS entry
points are instances of that score formula. -/
theorem c9_gls_monotone :
    (∀ c1 c2 na nb : Nat, c1 ≤ c2 → c2 ≤ na → c2 ≤ nb →
        glsQ c1 na nb ≤ glsQ c2 na nb)
    ∧ (∀ (a b : Molecule) (n : Nat),
        tdmcis_gls a b n
            = glsQ (mcisSolve a b n).size a.vertexCount b.vertexCount
          ∧ tdmces_gls a b n
            = glsQ (mcesSolve a b n).size a.edgeCount b.edgeCount) :=
  ⟨fun _ _ _ _ h12 h1 h2 => glsQ_mono h12 h1 h2, fun _ _ _ => ⟨rfl, rfl⟩⟩

/-- C9 witness: monotonicity at a concrete triple of sizes. -/
theorem c9_witness : glsQ 1 2 2 ≤ glsQ 2 2 2 :=
  c9_gls_monotone.1 1 2 2 2 (by decide) (by decide) (by decide)
